import Mathlib

/-!
Verification of the SnapSort identity-resolution core: the Faiss-backed
embedding index (`src/indexer.py`), the sqlite identity store (`src/db.py`)
and the ingestion controller (`src/controller.py`), shallowly embedded in
Lean 4.  Embedding vectors are modelled as lists of rationals, the sqlite
tables as lists of rows, and the bounded-concurrency scheduler as an
explicit transition system.
-/

namespace SnapSort

/-- An embedding vector (128-dim float vector in the source; modelled as a
list of rationals so distances are exact). -/
abbrev Emb := List ℚ

/-- Squared Euclidean distance between two embeddings, the metric used by
`faiss.IndexFlatL2` in `src/indexer.py`. -/
def sqDist (a b : Emb) : ℚ :=
  (List.zipWith (fun x y => (x - y) * (x - y)) a b).sum

/-- The state of `FaissIndex` (`src/indexer.py`): a flat L2 index is a
growable list of vectors, the row ordinal of a vector being its id. -/
structure FaissIndex where
  vectors : List Emb
deriving DecidableEq, Repr

/-- Model of `faiss.IndexFlatL2.search` with `k = 1`, taken from the library's
contract: scan all rows, return the (index, squared distance) of the
nearest row, lowest row ordinal winning on ties.  `i` is the ordinal of
the head of the remaining list. -/
def searchFrom (e : Emb) : Nat → List Emb → Option (Nat × ℚ)
  | _, [] => none
  | i, v :: vs =>
    match searchFrom e (i + 1) vs with
    | none => some (i, sqDist e v)
    | some (j, d) =>
      if sqDist e v ≤ d then some (i, sqDist e v) else some (j, d)

/-- Search `self.index.search(vec, 1)` over the whole index. -/
def search1 (s : FaissIndex) (e : Emb) : Option (Nat × ℚ) :=
  searchFrom e 0 s.vectors

/-- Model of `FaissIndex.find_or_add` (src/indexer.py lines 23-39): if the index is
non-empty, search the nearest neighbour; if its squared distance is below
the threshold (0.24 in the source) return its row ordinal without
inserting; otherwise append the embedding and return the pre-insertion
row count as its new id. -/
def find_or_add (s : FaissIndex) (e : Emb) (threshold : ℚ) :
    Nat × FaissIndex :=
  match search1 s e with
  | some (i, d) =>
    if d < threshold then (i, s)
    else (s.vectors.length, ⟨s.vectors ++ [e]⟩)
  | none => (s.vectors.length, ⟨s.vectors ++ [e]⟩)

/-- The source's default `threshold=0.24`. -/
def defaultThreshold : ℚ := 6 / 25

-- Basic facts about `searchFrom`.

theorem searchFrom_eq_none (e : Emb) (i : Nat) (l : List Emb) :
    searchFrom e i l = none ↔ l = [] := by
  cases l with
  | nil => simp [searchFrom]
  | cons v vs =>
    simp only [searchFrom]
    cases h : searchFrom e (i + 1) vs with
    | none => simp
    | some p =>
      obtain ⟨j, d⟩ := p
      by_cases hle : sqDist e v ≤ d <;> simp [hle]

theorem searchFrom_isSome (e : Emb) (i : Nat) (l : List Emb) (h : l ≠ []) :
    ∃ p, searchFrom e i l = some p := by
  cases hs : searchFrom e i l with
  | none => exact absurd ((searchFrom_eq_none e i l).mp hs) h
  | some p => exact ⟨p, rfl⟩

/-- The result of `searchFrom` names a row of the list and reports its
distance: the returned ordinal `j` satisfies `i ≤ j` and the row at offset
`j - i` is at squared distance `d` from the query. -/
theorem searchFrom_mem (e : Emb) (i : Nat) (l : List Emb) (j : Nat) (d : ℚ)
    (h : searchFrom e i l = some (j, d)) :
    i ≤ j ∧ ∃ v, l.get? (j - i) = some v ∧ sqDist e v = d := by
  induction l generalizing i j d with
  | nil => simp [searchFrom] at h
  | cons v vs ih =>
    simp only [searchFrom] at h
    cases hs : searchFrom e (i + 1) vs with
    | none =>
      rw [hs] at h
      simp only [Option.some.injEq, Prod.mk.injEq] at h
      obtain ⟨rfl, rfl⟩ := h
      exact ⟨le_refl _, v, by rw [Nat.sub_self]; rfl, rfl⟩
    | some p =>
      obtain ⟨j', d'⟩ := p
      rw [hs] at h
      by_cases hle : sqDist e v ≤ d'
      · simp only [if_pos hle, Option.some.injEq, Prod.mk.injEq] at h
        obtain ⟨rfl, rfl⟩ := h
        exact ⟨le_refl _, v, by rw [Nat.sub_self]; rfl, rfl⟩
      · simp only [if_neg hle, Option.some.injEq, Prod.mk.injEq] at h
        obtain ⟨rfl, rfl⟩ := h
        obtain ⟨hij, v', hv', hd⟩ := ih _ _ _ hs
        refine ⟨by omega, v', ?_, hd⟩
        have hoff : j' - i = (j' - (i + 1)) + 1 := by omega
        rw [hoff, List.get?_cons_succ]
        exact hv'

/-- The distance reported by `searchFrom` is minimal over the list. -/
theorem searchFrom_min (e : Emb) (i : Nat) (l : List Emb) (j : Nat) (d : ℚ)
    (h : searchFrom e i l = some (j, d)) :
    ∀ v ∈ l, d ≤ sqDist e v := by
  induction l generalizing i j d with
  | nil => simp [searchFrom] at h
  | cons w ws ih =>
    intro v hv
    simp only [searchFrom] at h
    cases hs : searchFrom e (i + 1) ws with
    | none =>
      rw [hs] at h
      have hws : ws = [] := (searchFrom_eq_none e (i + 1) ws).mp hs
      subst hws
      simp only [Option.some.injEq, Prod.mk.injEq] at h
      obtain ⟨rfl, rfl⟩ := h
      simp only [List.mem_cons, List.not_mem_nil, or_false] at hv
      subst hv
      exact le_refl _
    | some p =>
      obtain ⟨j', d'⟩ := p
      rw [hs] at h
      by_cases hle : sqDist e w ≤ d'
      · simp only [if_pos hle, Option.some.injEq, Prod.mk.injEq] at h
        obtain ⟨rfl, rfl⟩ := h
        rcases List.mem_cons.mp hv with hv | hv
        · exact le_of_eq (congrArg (sqDist e) hv.symm)
        · exact le_trans hle (ih _ _ _ hs v hv)
      · simp only [if_neg hle, Option.some.injEq, Prod.mk.injEq] at h
        obtain ⟨rfl, rfl⟩ := h
        rcases List.mem_cons.mp hv with hv | hv
        · subst hv
          exact le_of_lt (lt_of_not_le hle)
        · exact ih _ _ _ hs v hv

/-- The nearest-neighbour search hands back a valid row ordinal whose row
realises the minimum squared distance over the whole index. -/
theorem search1_spec (s : FaissIndex) (e : Emb) (j : Nat) (d : ℚ)
    (h : search1 s e = some (j, d)) :
    (∃ v, s.vectors.get? j = some v ∧ sqDist e v = d) ∧
      ∀ v ∈ s.vectors, d ≤ sqDist e v := by
  obtain ⟨-, v, hv, hd⟩ := searchFrom_mem e 0 s.vectors j d h
  exact ⟨⟨v, by simpa using hv, hd⟩, searchFrom_min e 0 s.vectors j d h⟩

theorem sqDist_comm (a b : Emb) : sqDist a b = sqDist b a := by
  unfold sqDist
  induction a generalizing b with
  | nil => cases b <;> simp
  | cons x xs ih =>
    cases b with
    | nil => simp
    | cons y ys =>
      simp only [List.zipWith, List.sum_cons, ih ys]
      ring_nf

/-- Calling `find_or_add` on an empty index appends and returns id 0. -/
theorem find_or_add_empty (e : Emb) (t : ℚ) :
    find_or_add ⟨[]⟩ e t = (0, ⟨[e]⟩) := rfl

/-- When some stored vector lies strictly within the threshold,
`find_or_add` returns a minimising row ordinal and leaves the index
unchanged. -/
theorem find_or_add_hit (s : FaissIndex) (e : Emb) (t : ℚ)
    (h : ∃ v ∈ s.vectors, sqDist e v < t) :
    ∃ i v, find_or_add s e t = (i, s) ∧ s.vectors.get? i = some v ∧
      sqDist e v < t ∧ ∀ w ∈ s.vectors, sqDist e v ≤ sqDist e w := by
  obtain ⟨v0, hv0, hd0⟩ := h
  cases hsearch : search1 s e with
  | none =>
    have : s.vectors = [] := (searchFrom_eq_none e 0 s.vectors).mp hsearch
    rw [this] at hv0
    exact absurd hv0 (List.not_mem_nil v0)
  | some p =>
    obtain ⟨j, d⟩ := p
    obtain ⟨⟨v, hv, hd⟩, hmin⟩ := search1_spec s e j d hsearch
    have hdt : d < t := lt_of_le_of_lt (hmin v0 hv0) hd0
    refine ⟨j, v, ?_, hv, hd ▸ hdt, fun w hw => hd ▸ hmin w hw⟩
    unfold find_or_add
    rw [hsearch]
    simp [hdt]

/-- When every stored vector is at distance at least the threshold,
`find_or_add` appends the embedding and returns the pre-call count. -/
theorem find_or_add_miss (s : FaissIndex) (e : Emb) (t : ℚ)
    (h : ∀ v ∈ s.vectors, t ≤ sqDist e v) :
    find_or_add s e t = (s.vectors.length, ⟨s.vectors ++ [e]⟩) := by
  cases hsearch : search1 s e with
  | none =>
    unfold find_or_add
    rw [hsearch]
  | some p =>
    obtain ⟨j, d⟩ := p
    obtain ⟨⟨v, hv, hd⟩, -⟩ := search1_spec s e j d hsearch
    have htd : t ≤ d := hd ▸ h v (List.get?_mem hv)
    unfold find_or_add
    rw [hsearch]
    simp [not_lt.mpr htd]

/-- C1: counterexample to the claim as stated.  With the index already
holding the vector `[0]`, `resolve([2/5])` matches `[0]` (squared distance
4/25 < 6/25) and returns id 0 without inserting; `[4/5]` is within the
threshold of `[2/5]` (squared distance 4/25 < 6/25), yet `resolve([4/5])`
finds its nearest stored vector `[0]` at squared distance 16/25 ≥ 6/25 and
so mints the new id 1 ≠ 0: `resolve(e2)` after `resolve(e1)` with
`distance(e1,e2) < threshold` need not return the same id. -/
theorem c1_counterexample :
    sqDist [(2 : ℚ)/5] [4/5] < 6/25 ∧
    (find_or_add (find_or_add ⟨[[0]]⟩ [2/5] (6/25)).2 [4/5] (6/25)).1 ≠
      (find_or_add ⟨[[0]]⟩ [2/5] (6/25)).1 := by
  constructor
  · norm_num [sqDist]
  · norm_num [find_or_add, search1, searchFrom, sqDist]

/-- C1 (amended): for every embedding `e` and every index state, if some
stored vector is strictly within the threshold of `e` then `find_or_add`
returns a row ordinal minimising the squared distance and inserts nothing;
otherwise it appends `e` and returns the pre-call vector count as the new
id.  The chaining consequence holds from an empty index: after
`resolve(e1)` starting empty, `resolve(e2)` with
`distance(e1,e2) < threshold` returns the same id as `resolve(e1)`. -/
theorem c1_find_or_add_spec (s : FaissIndex) (e : Emb) (t : ℚ)
    (e1 e2 : Emb) :
    ((∃ v ∈ s.vectors, sqDist e v < t) →
      ∃ i v, find_or_add s e t = (i, s) ∧ s.vectors.get? i = some v ∧
        sqDist e v < t ∧ ∀ w ∈ s.vectors, sqDist e v ≤ sqDist e w) ∧
    ((∀ v ∈ s.vectors, t ≤ sqDist e v) →
      find_or_add s e t = (s.vectors.length, ⟨s.vectors ++ [e]⟩)) ∧
    (sqDist e1 e2 < t →
      (find_or_add (find_or_add ⟨[]⟩ e1 t).2 e2 t).1 =
        (find_or_add ⟨[]⟩ e1 t).1) := by
  refine ⟨find_or_add_hit s e t, find_or_add_miss s e t, ?_⟩
  intro hch
  show (find_or_add ⟨[e1]⟩ e2 t).1 = 0
  obtain ⟨i, v, heq, hget, -, -⟩ := find_or_add_hit ⟨[e1]⟩ e2 t
    ⟨e1, by simp, by rwa [sqDist_comm]⟩
  rw [heq]
  cases i with
  | zero => rfl
  | succ n => simp at hget

/-- C1 witness: the amended theorem applied at concrete inputs. -/
theorem c1_witness :
    (∃ i v, find_or_add ⟨[[0]]⟩ [(1 : ℚ)/5] (6/25) = (i, ⟨[[0]]⟩) ∧
      [[(0 : ℚ)]].get? i = some v ∧ sqDist [(1 : ℚ)/5] v < 6/25 ∧
      ∀ w ∈ [[(0 : ℚ)]], sqDist [(1 : ℚ)/5] v ≤ sqDist [(1 : ℚ)/5] w) ∧
    find_or_add ⟨[[0]]⟩ [(1 : ℚ)] (6/25) = (1, ⟨[[0], [1]]⟩) ∧
    (find_or_add (find_or_add ⟨[]⟩ [(0 : ℚ)] (6/25)).2 [(1 : ℚ)/5] (6/25)).1 =
      (find_or_add ⟨[]⟩ [(0 : ℚ)] (6/25)).1 := by
  refine ⟨(c1_find_or_add_spec ⟨[[0]]⟩ [(1 : ℚ)/5] (6/25) [0] [1/5]).1
      ⟨[0], by simp, by norm_num [sqDist]⟩,
    (c1_find_or_add_spec ⟨[[0]]⟩ [(1 : ℚ)] (6/25) [0] [1/5]).2.1 ?_,
    (c1_find_or_add_spec ⟨[[0]]⟩ [(1 : ℚ)] (6/25) [(0 : ℚ)] [(1 : ℚ)/5]).2.2
      (by norm_num [sqDist])⟩
  intro v hv
  simp only [List.mem_cons, List.not_mem_nil, or_false] at hv
  subst hv
  norm_num [sqDist]

/-! ## The identity store (`src/db.py`)

The sqlite tables `images`, `faces` and `occurrences` are modelled as
lists of rows.  Timestamps (`os.path.getmtime`, `time.time()`) are passed
in as parameters. -/

/-- A row of the `images` table: `id INTEGER PRIMARY KEY, path TEXT
UNIQUE, modified REAL`. -/
structure ImageRow where
  id : Nat
  path : String
  modified : ℚ
deriving DecidableEq, Repr

/-- A row of the `faces` table: `id INTEGER PRIMARY KEY, last_seen
REAL`.  The id is supplied by the caller (minted by the index), not
autogenerated. -/
structure FaceRow where
  id : Nat
  last_seen : ℚ
deriving DecidableEq, Repr

/-- A row of the `occurrences` table: `image_id, face_id, x1, y1, x2,
y2`. -/
structure OccurrenceRow where
  image_id : Nat
  face_id : Nat
  box : Int × Int × Int × Int
deriving DecidableEq, Repr

/-- The relational store of `src/db.py`. -/
structure Database where
  images : List ImageRow
  faces : List FaceRow
  occurrences : List OccurrenceRow
deriving DecidableEq, Repr

def emptyDB : Database := ⟨[], [], []⟩

/-- sqlite `INTEGER PRIMARY KEY` rowid allocation: one more than the
largest id in the table (1 for an empty table). -/
def nextImageId (db : Database) : Nat :=
  (db.images.map (fun r => r.id)).foldr max 0 + 1

/-- Step `INSERT OR IGNORE INTO images(path, modified)`: a no-op when a row
with this path exists (UNIQUE column), otherwise a fresh row. -/
def upsertImage (db : Database) (path : String) (mtime : ℚ) : Database :=
  if db.images.any (fun r => r.path = path) then db
  else { db with images := db.images ++ [⟨nextImageId db, path, mtime⟩] }

/-- Step `SELECT id FROM images WHERE path = ?` followed by `fetchone()`. -/
def lookupImageId (db : Database) (path : String) : Option Nat :=
  (db.images.find? (fun r => r.path = path)).map (fun r => r.id)

/-- Step `INSERT OR IGNORE INTO faces(id, last_seen)` then `UPDATE faces SET
last_seen = ? WHERE id = ?`. -/
def upsertFace (db : Database) (fid : Nat) (now : ℚ) : Database :=
  let db1 :=
    if db.faces.any (fun r => r.id = fid) then db
    else { db with faces := db.faces ++ [⟨fid, now⟩] }
  { db1 with
    faces := db1.faces.map (fun r => if r.id = fid then ⟨r.id, now⟩ else r) }

/-- Step `INSERT INTO occurrences(image_id, face_id, x1, y1, x2, y2)`. -/
def addOccurrenceRow (db : Database) (imgId fid : Nat)
    (box : Int × Int × Int × Int) : Database :=
  { db with occurrences := db.occurrences ++ [⟨imgId, fid, box⟩] }

/-- Model of `Database.insert_occurrence` (src/db.py lines 40-75): upsert the
image row, look up its id, upsert the face row, insert the occurrence;
all inside one transaction committed at the end. -/
def insert_occurrence (db : Database) (path : String) (fid : Nat)
    (box : Int × Int × Int × Int) (mtime now : ℚ) : Database :=
  let db1 := upsertImage db path mtime
  let imgId := (lookupImageId db1 path).getD 0
  let db2 := upsertFace db1 fid now
  addOccurrenceRow db2 imgId fid box

/-- The uncommitted in-transaction state of `insert_occurrence` after its
first `k` sub-steps (0 = nothing executed, 1 = image upserted, 2 = face
upserted, 3 = occurrence inserted). -/
def insertOccurrenceAt (db : Database) (path : String) (fid : Nat)
    (box : Int × Int × Int × Int) (mtime now : ℚ) (k : Nat) : Database :=
  match k with
  | 0 => db
  | 1 => upsertImage db path mtime
  | 2 => upsertFace (upsertImage db path mtime) fid now
  | _ => insert_occurrence db path fid box mtime now

/-- What a reader observes if the process crashes after `k` sub-steps of
`insert_occurrence`: sqlite rolls an uncommitted transaction back on
recovery, and the single `commit()` is the last step, so any crash before
step 3 restores the pre-call state. -/
def observedAfterCrash (db : Database) (path : String) (fid : Nat)
    (box : Int × Int × Int × Int) (mtime now : ℚ) (k : Nat) : Database :=
  if k < 3 then db else insert_occurrence db path fid box mtime now

/-- Model of `Database.get_faces_in_image` (src/db.py lines 77-97): the empty list
when the path is falsy or unknown, otherwise the `face_id` of every
occurrence of the image — one entry per occurrence row, no DISTINCT. -/
def get_faces_in_image (db : Database) (path : String) : List Nat :=
  if path = "" then []
  else
    match db.images.find? (fun r => r.path = path) with
    | none => []
    | some img =>
      (db.occurrences.filter (fun o => o.image_id = img.id)).map
        (fun o => o.face_id)

/-- Model of `Database.get_images_with_face` (src/db.py lines 99-116):
`SELECT DISTINCT images.path FROM occurrences JOIN images ON
occurrences.image_id = images.id WHERE face_id = ?`. -/
def get_images_with_face (db : Database) (fid : Nat) : List String :=
  ((db.occurrences.filter (fun o => o.face_id = fid)).flatMap
    (fun o => (db.images.filter (fun r => r.id = o.image_id)).map
      (fun r => r.path))).dedup

/-- Model of `Database.get_images_with_faces` (src/db.py lines 118-141): `[]` for
an empty input, otherwise `GROUP BY images.id HAVING COUNT(DISTINCT
face_id) = len(face_ids)` over the join restricted to the given ids. -/
def get_images_with_faces (db : Database) (fids : List Nat) : List String :=
  if fids = [] then []
  else
    (db.images.filter (fun img =>
      (((db.occurrences.filter
          (fun o => o.image_id = img.id ∧ o.face_id ∈ fids)).map
        (fun o => o.face_id)).dedup).length = fids.length)).map
      (fun r => r.path)

/-- Model of `Database.get_processed_images` (src/db.py lines 143-156): the
distinct paths of images having at least one occurrence. -/
def get_processed_images (db : Database) : List String :=
  (db.occurrences.flatMap
    (fun o => (db.images.filter (fun r => r.id = o.image_id)).map
      (fun r => r.path))).dedup

/-- Step `UPDATE occurrences SET face_id = ? WHERE face_id IN (...)` applied
to one row. -/
def redirectOcc (primary : Nat) (others : List Nat) (o : OccurrenceRow) :
    OccurrenceRow :=
  if o.face_id ∈ others then ⟨o.image_id, primary, o.box⟩ else o

/-- Model of `Database.merge_faces` (src/db.py lines 196-222): redirect every
occurrence of an id in `others` to `primary`, then delete the `faces`
rows of `others`; a no-op for an empty list. -/
def merge_faces (db : Database) (primary : Nat) (others : List Nat) :
    Database :=
  if others = [] then db
  else
    { db with
      occurrences := db.occurrences.map (redirectOcc primary others),
      faces := db.faces.filter (fun f => ¬ f.id ∈ others) }

/-- Referential integrity: every occurrence references an existing image
row and an existing face row. -/
def refIntegrity (db : Database) : Prop :=
  ∀ occ ∈ db.occurrences,
    (∃ img ∈ db.images, img.id = occ.image_id) ∧
      ∃ f ∈ db.faces, f.id = occ.face_id

/-- The schema's key constraints: `images.id` PRIMARY KEY, `images.path`
UNIQUE, `faces.id` PRIMARY KEY. -/
def WFdb (db : Database) : Prop :=
  (db.images.map (fun r => r.id)).Nodup ∧
  (db.images.map (fun r => r.path)).Nodup ∧
  (db.faces.map (fun r => r.id)).Nodup

theorem find_some_of_exists {α : Type} (l : List α) (p : α → Bool)
    (h : ∃ x ∈ l, p x) :
    ∃ r, l.find? p = some r ∧ r ∈ l ∧ p r := by
  cases hf : l.find? p with
  | none =>
    rw [List.find?_eq_none] at hf
    obtain ⟨x, hx, hp⟩ := h
    exact absurd hp (by simp [hf x hx])
  | some r =>
    exact ⟨r, rfl, List.mem_of_find?_eq_some hf, List.find?_some hf⟩

theorem upsertImage_occurrences (db : Database) (path : String) (mtime : ℚ) :
    (upsertImage db path mtime).occurrences = db.occurrences := by
  unfold upsertImage
  split <;> rfl

theorem upsertImage_faces (db : Database) (path : String) (mtime : ℚ) :
    (upsertImage db path mtime).faces = db.faces := by
  unfold upsertImage
  split <;> rfl

theorem upsertImage_images_mono (db : Database) (path : String) (mtime : ℚ) :
    ∀ r ∈ db.images, r ∈ (upsertImage db path mtime).images := by
  intro r hr
  unfold upsertImage
  split
  · exact hr
  · exact List.mem_append_left _ hr

theorem upsertImage_has_path (db : Database) (path : String) (mtime : ℚ) :
    ∃ r ∈ (upsertImage db path mtime).images, r.path = path := by
  unfold upsertImage
  split
  · next h =>
    obtain ⟨r, hr, hp⟩ := List.any_eq_true.mp h
    exact ⟨r, hr, by simpa using hp⟩
  · exact ⟨⟨nextImageId db, path, mtime⟩, by simp, rfl⟩

theorem upsertFace_images (db : Database) (fid : Nat) (now : ℚ) :
    (upsertFace db fid now).images = db.images := by
  unfold upsertFace
  split <;> rfl

theorem upsertFace_occurrences (db : Database) (fid : Nat) (now : ℚ) :
    (upsertFace db fid now).occurrences = db.occurrences := by
  unfold upsertFace
  split <;> rfl

theorem upsertFace_id_mono (db : Database) (fid : Nat) (now : ℚ) (x : Nat)
    (h : ∃ f ∈ db.faces, f.id = x) :
    ∃ f ∈ (upsertFace db fid now).faces, f.id = x := by
  obtain ⟨f, hf, hid⟩ := h
  unfold upsertFace
  split
  · next =>
    refine ⟨if f.id = fid then ⟨f.id, now⟩ else f, List.mem_map_of_mem _ hf, ?_⟩
    split <;> simp [hid]
  · next =>
    refine ⟨if f.id = fid then ⟨f.id, now⟩ else f, ?_, ?_⟩
    · exact List.mem_map_of_mem _ (List.mem_append_left _ hf)
    · split <;> simp [hid]

theorem upsertFace_has_id (db : Database) (fid : Nat) (now : ℚ) :
    ∃ f ∈ (upsertFace db fid now).faces, f.id = fid := by
  unfold upsertFace
  split
  · next h =>
    obtain ⟨f, hf, hp⟩ := List.any_eq_true.mp h
    have hid : f.id = fid := by simpa using hp
    refine ⟨if f.id = fid then ⟨f.id, now⟩ else f, List.mem_map_of_mem _ hf, ?_⟩
    split <;> simp [hid]
  · next =>
    refine ⟨⟨fid, now⟩, ?_, rfl⟩
    show (⟨fid, now⟩ : FaceRow) ∈
      (db.faces ++ [(⟨fid, now⟩ : FaceRow)]).map
        (fun r : FaceRow => if r.id = fid then (⟨r.id, now⟩ : FaceRow) else r)
    refine List.mem_map.mpr ⟨⟨fid, now⟩, by simp, by simp⟩

theorem lookupImageId_upsertImage (db : Database) (path : String)
    (mtime : ℚ) :
    ∃ imgId, lookupImageId (upsertImage db path mtime) path = some imgId ∧
      ∃ img ∈ (upsertImage db path mtime).images, img.id = imgId := by
  obtain ⟨r, hr, hp⟩ := upsertImage_has_path db path mtime
  obtain ⟨r', hfind, hmem, -⟩ :=
    find_some_of_exists (upsertImage db path mtime).images
      (fun q => q.path = path) ⟨r, hr, by simp [hp]⟩
  exact ⟨r'.id, by simp [lookupImageId, hfind], r', hmem, rfl⟩

theorem insert_occurrence_eq (db : Database) (path : String) (fid : Nat)
    (box : Int × Int × Int × Int) (mtime now : ℚ) :
    insert_occurrence db path fid box mtime now =
      addOccurrenceRow (upsertFace (upsertImage db path mtime) fid now)
        ((lookupImageId (upsertImage db path mtime) path).getD 0) fid box :=
  rfl

/-- C3: `record_occurrence` is atomic.  All three table effects share one
transaction whose `commit()` is the final sub-step, so a crash after any
proper prefix of sub-steps rolls back to the pre-call state; moreover
every state — pre-call, any in-transaction prefix, and the committed
result — satisfies referential integrity: no occurrence ever references a
missing image or face row (the image and face upserts precede the
occurrence insert). -/
theorem c3_record_occurrence_atomic (db : Database) (path : String)
    (fid : Nat) (box : Int × Int × Int × Int) (mtime now : ℚ)
    (h : refIntegrity db) :
    (∀ k, k < 3 → observedAfterCrash db path fid box mtime now k = db) ∧
    (∀ k, refIntegrity (insertOccurrenceAt db path fid box mtime now k)) ∧
    refIntegrity (insert_occurrence db path fid box mtime now) := by
  have h1 : refIntegrity (upsertImage db path mtime) := by
    intro occ hocc
    rw [upsertImage_occurrences] at hocc
    obtain ⟨⟨img, himg, hid⟩, hface⟩ := h occ hocc
    exact ⟨⟨img, upsertImage_images_mono db path mtime img himg, hid⟩,
      by rwa [upsertImage_faces]⟩
  have h2 : refIntegrity (upsertFace (upsertImage db path mtime) fid now) := by
    intro occ hocc
    rw [upsertFace_occurrences] at hocc
    obtain ⟨himg, hface⟩ := h1 occ hocc
    exact ⟨by rwa [upsertFace_images], upsertFace_id_mono _ fid now _ hface⟩
  have h3 : refIntegrity (insert_occurrence db path fid box mtime now) := by
    obtain ⟨imgId0, hlook, img, himg, hid⟩ := lookupImageId_upsertImage db path mtime
    intro occ hocc
    rw [insert_occurrence_eq] at hocc
    rcases List.mem_append.mp hocc with hold | hnew
    · exact h2 occ hold
    · have hocc2 : occ = ⟨(lookupImageId (upsertImage db path mtime) path).getD 0,
          fid, box⟩ := by simpa using hnew
      subst hocc2
      constructor
      · refine ⟨img, ?_, ?_⟩
        · show img ∈ (upsertFace (upsertImage db path mtime) fid now).images
          rw [upsertFace_images]
          exact himg
        · show img.id = (lookupImageId (upsertImage db path mtime) path).getD 0
          rw [hlook]
          exact hid
      · obtain ⟨f, hf, hfid⟩ := upsertFace_has_id (upsertImage db path mtime) fid now
        exact ⟨f, hf, hfid⟩
  refine ⟨fun k hk => by simp [observedAfterCrash, hk], fun k => ?_, h3⟩
  match k with
  | 0 => exact h
  | 1 => exact h1
  | 2 => exact h2
  | (n + 3) => exact h3

/-- C3 witness: the atomicity theorem at a concrete insertion into the
empty store. -/
theorem c3_witness :
    observedAfterCrash emptyDB "a.jpg" 0 (0, 0, 1, 1) 0 0 1 = emptyDB ∧
    refIntegrity (insertOccurrenceAt emptyDB "a.jpg" 0 (0, 0, 1, 1) 0 0 2) ∧
    refIntegrity (insert_occurrence emptyDB "a.jpg" 0 (0, 0, 1, 1) 0 0) := by
  obtain ⟨ha, hb, hc⟩ := c3_record_occurrence_atomic emptyDB "a.jpg" 0
    (0, 0, 1, 1) 0 0 (by intro occ hocc; exact absurd hocc (List.not_mem_nil occ))
  exact ⟨ha 1 (by omega), hb 2, hc⟩

/-- Membership in the `get_images_with_face` result: a path is reported
iff some occurrence with the requested face id joins to an image row with
that path. -/
theorem mem_get_images_with_face (db : Database) (fid : Nat) (p : String) :
    p ∈ get_images_with_face db fid ↔
      ∃ o ∈ db.occurrences, o.face_id = fid ∧
        ∃ img ∈ db.images, img.id = o.image_id ∧ img.path = p := by
  unfold get_images_with_face
  rw [List.mem_dedup]
  simp only [List.mem_flatMap, List.mem_filter, List.mem_map,
    decide_eq_true_eq]
  constructor
  · rintro ⟨o, ⟨ho, hfid⟩, img, ⟨himg, hid⟩, hpath⟩
    exact ⟨o, ho, hfid, img, himg, hid, hpath⟩
  · rintro ⟨o, ho, hfid, img, himg, hid, hpath⟩
    exact ⟨o, ⟨ho, hfid⟩, img, ⟨himg, hid⟩, hpath⟩

theorem merge_faces_images (db : Database) (primary : Nat)
    (others : List Nat) :
    (merge_faces db primary others).images = db.images := by
  unfold merge_faces
  split <;> rfl

theorem merge_faces_occurrences (db : Database) (primary : Nat)
    (others : List Nat) (h : others ≠ []) :
    (merge_faces db primary others).occurrences =
      db.occurrences.map (redirectOcc primary others) := by
  unfold merge_faces
  rw [if_neg h]

theorem redirectOcc_image_id (primary : Nat) (others : List Nat)
    (o : OccurrenceRow) :
    (redirectOcc primary others o).image_id = o.image_id := by
  unfold redirectOcc
  split <;> rfl

theorem redirectOcc_box (primary : Nat) (others : List Nat)
    (o : OccurrenceRow) :
    (redirectOcc primary others o).box = o.box := by
  unfold redirectOcc
  split <;> rfl

theorem redirectOcc_face_id (primary : Nat) (others : List Nat)
    (o : OccurrenceRow) :
    (redirectOcc primary others o).face_id =
      if o.face_id ∈ others then primary else o.face_id := by
  unfold redirectOcc
  split <;> simp_all

/-! ## The controller (`src/controller.py`): shared state -/

/-- The controller's two persistent stores: the Faiss index and the
relational database. -/
structure SysState where
  idx : FaissIndex
  db : Database
deriving DecidableEq, Repr

/-- Model of `Controller.merge_face_ids` (src/controller.py lines 140-153): early
return for an empty list, otherwise delegate to `db.merge_faces`; the
Faiss index is deliberately not rebuilt. -/
def merge_face_ids (sys : SysState) (primary : Nat) (others : List Nat) :
    SysState :=
  if others = [] then sys
  else { sys with db := merge_faces sys.db primary others }

/-- C4: counterexample to the claim as stated.  The claim quantifies over
every non-empty `other_ids`; taking `other_ids` containing `primary_id`
itself (merge 0 into [0]) redirects the occurrence of face 0 back to 0,
so `images_with(0)` is non-empty afterwards even though `0 ∈ other_ids`. -/
theorem c4_counterexample :
    ([0] : List Nat) ≠ [] ∧ (0 : Nat) ∈ [0] ∧
    get_images_with_face
        (merge_faces ⟨[⟨1, "a.jpg", 0⟩], [⟨0, 0⟩], [⟨1, 0, (0, 0, 1, 1)⟩]⟩
          0 [0]) 0 ≠ [] := by
  refine ⟨by simp, by simp, ?_⟩
  intro hcontra
  have hmem : "a.jpg" ∈ get_images_with_face
      (merge_faces ⟨[⟨1, "a.jpg", 0⟩], [⟨0, 0⟩], [⟨1, 0, (0, 0, 1, 1)⟩]⟩
        0 [0]) 0 := by
    refine (mem_get_images_with_face _ _ _).mpr
      ⟨⟨1, 0, (0, 0, 1, 1)⟩, ?_, rfl, ⟨1, "a.jpg", 0⟩, ?_, rfl, rfl⟩
    · rw [merge_faces_occurrences _ _ _ (by simp)]
      simp [redirectOcc]
    · rw [merge_faces_images]
      simp
  rw [hcontra] at hmem
  exact absurd hmem (List.not_mem_nil _)

/-- C4 (amended): for `primary_id ∉ other_ids` and non-empty `other_ids`,
`merge` rewrites every occurrence of an id in `other_ids` to
`primary_id` and deletes those identity rows, leaving images and the
embedding index untouched; afterwards `images_with(b)` is empty for every
`b ∈ other_ids` and `images_with(primary_id)` is the union of the
pre-merge results for `primary_id` and all of `other_ids`.  For empty
`other_ids` the merge is a no-op. -/
theorem c4_merge_spec (sys : SysState) (db : Database) (primary : Nat)
    (others : List Nat) (hne : others ≠ []) (hp : primary ∉ others) :
    (∀ b ∈ others, get_images_with_face (merge_faces db primary others) b = []) ∧
    (∀ p, p ∈ get_images_with_face (merge_faces db primary others) primary ↔
      (p ∈ get_images_with_face db primary ∨
        ∃ b ∈ others, p ∈ get_images_with_face db b)) ∧
    (merge_faces db primary others).faces =
      db.faces.filter (fun f => ¬ f.id ∈ others) ∧
    (merge_faces db primary others).images = db.images ∧
    merge_faces db primary [] = db ∧
    (merge_face_ids sys primary others).idx = sys.idx := by
  refine ⟨?_, ?_, by unfold merge_faces; rw [if_neg hne],
    merge_faces_images db primary others,
    by unfold merge_faces; rw [if_pos rfl],
    by unfold merge_face_ids; split <;> rfl⟩
  · intro b hb
    rw [List.eq_nil_iff_forall_not_mem]
    intro p hmem
    obtain ⟨o', ho', hface, img, himg, hid, hpath⟩ :=
      (mem_get_images_with_face _ _ _).mp hmem
    rw [merge_faces_occurrences _ _ _ hne] at ho'
    obtain ⟨o0, ho0, rfl⟩ := List.mem_map.mp ho'
    rw [redirectOcc_face_id] at hface
    by_cases hin : o0.face_id ∈ others
    · rw [if_pos hin] at hface
      exact hp (hface ▸ hb)
    · rw [if_neg hin] at hface
      exact hin (hface ▸ hb)
  · intro p
    constructor
    · intro hmem
      obtain ⟨o', ho', hface, img, himg, hid, hpath⟩ :=
        (mem_get_images_with_face _ _ _).mp hmem
      rw [merge_faces_occurrences _ _ _ hne] at ho'
      rw [merge_faces_images] at himg
      obtain ⟨o0, ho0, rfl⟩ := List.mem_map.mp ho'
      rw [redirectOcc_image_id] at hid
      rw [redirectOcc_face_id] at hface
      by_cases hin : o0.face_id ∈ others
      · right
        exact ⟨o0.face_id, hin, (mem_get_images_with_face _ _ _).mpr
          ⟨o0, ho0, rfl, img, himg, hid, hpath⟩⟩
      · left
        rw [if_neg hin] at hface
        exact (mem_get_images_with_face _ _ _).mpr
          ⟨o0, ho0, hface, img, himg, hid, hpath⟩
    · intro hmem
      rcases hmem with hmem | ⟨b, hb, hmem⟩
      · obtain ⟨o0, ho0, hface, img, himg, hid, hpath⟩ :=
          (mem_get_images_with_face _ _ _).mp hmem
        refine (mem_get_images_with_face _ _ _).mpr
          ⟨redirectOcc primary others o0, ?_, ?_, img, ?_, ?_, hpath⟩
        · rw [merge_faces_occurrences _ _ _ hne]
          exact List.mem_map_of_mem _ ho0
        · rw [redirectOcc_face_id, hface, if_neg hp]
        · rw [merge_faces_images]
          exact himg
        · rw [redirectOcc_image_id]
          exact hid
      · obtain ⟨o0, ho0, hface, img, himg, hid, hpath⟩ :=
          (mem_get_images_with_face _ _ _).mp hmem
        refine (mem_get_images_with_face _ _ _).mpr
          ⟨redirectOcc primary others o0, ?_, ?_, img, ?_, ?_, hpath⟩
        · rw [merge_faces_occurrences _ _ _ hne]
          exact List.mem_map_of_mem _ ho0
        · rw [redirectOcc_face_id, hface, if_pos hb]
        · rw [merge_faces_images]
          exact himg
        · rw [redirectOcc_image_id]
          exact hid

/-- A store holding one image `a.jpg` with one occurrence of face 1, and
identity rows 0 and 1. -/
def mergeExDB : Database :=
  ⟨[⟨1, "a.jpg", 0⟩], [⟨0, 0⟩, ⟨1, 0⟩], [⟨1, 1, (0, 0, 1, 1)⟩]⟩

/-- C4 witness: the amended merge theorem at merge(0, [1]) on
`mergeExDB`. -/
theorem c4_witness :
    get_images_with_face (merge_faces mergeExDB 0 [1]) 1 = [] ∧
    ("a.jpg" ∈ get_images_with_face (merge_faces mergeExDB 0 [1]) 0 ↔
      ("a.jpg" ∈ get_images_with_face mergeExDB 0 ∨
        ∃ b ∈ [1], "a.jpg" ∈ get_images_with_face mergeExDB b)) ∧
    (merge_faces mergeExDB 0 [1]).faces =
      mergeExDB.faces.filter (fun f => ¬ f.id ∈ [1]) ∧
    (merge_faces mergeExDB 0 [1]).images = mergeExDB.images ∧
    merge_faces mergeExDB 0 [] = mergeExDB ∧
    (merge_face_ids ⟨⟨[]⟩, mergeExDB⟩ 0 [1]).idx = ⟨[]⟩ := by
  obtain ⟨ha, hb, hc, hd, he, hf⟩ :=
    c4_merge_spec ⟨⟨[]⟩, mergeExDB⟩ mergeExDB 0 [1] (by simp) (by simp)
  exact ⟨ha 1 (by simp), hb "a.jpg", hc, hd, he, hf⟩

theorem dedup_const {α : Type} [DecidableEq α] (l : List α) (c : α)
    (hne : l ≠ []) (hall : ∀ x ∈ l, x = c) : l.dedup = [c] := by
  have h1 : ∀ x ∈ l.dedup, x = c := fun x hx => hall x (List.mem_dedup.mp hx)
  have hnodup := l.nodup_dedup
  cases hd : l.dedup with
  | nil =>
    obtain ⟨x, hx⟩ := List.exists_mem_of_ne_nil l hne
    have hx2 : x ∈ l.dedup := List.mem_dedup.mpr hx
    rw [hd] at hx2
    exact absurd hx2 (List.not_mem_nil x)
  | cons a as =>
    have ha : a = c := h1 a (by rw [hd]; exact List.mem_cons_self a as)
    cases as with
    | nil => rw [ha]
    | cons b bs =>
      have hb : b = c := h1 b (by rw [hd]; simp)
      rw [hd] at hnodup
      exfalso
      have hab : a ≠ b := by
        intro hab
        exact (List.nodup_cons.mp hnodup).1 (hab ▸ List.mem_cons_self b bs)
      exact hab (ha.trans hb.symm)

/-- Membership in the `get_images_with_faces` result for a non-empty id
list: an image row qualifies when its count of distinct matched face ids
equals the length of the input list. -/
theorem mem_get_images_with_faces (db : Database) (fids : List Nat)
    (p : String) (hne : fids ≠ []) :
    p ∈ get_images_with_faces db fids ↔
      ∃ img ∈ db.images, img.path = p ∧
        (((db.occurrences.filter
            (fun o => o.image_id = img.id ∧ o.face_id ∈ fids)).map
          (fun o => o.face_id)).dedup).length = fids.length := by
  unfold get_images_with_faces
  rw [if_neg hne]
  simp only [List.mem_map, List.mem_filter, decide_eq_true_eq]
  constructor
  · rintro ⟨img, ⟨himg, hcount⟩, hpath⟩
    exact ⟨img, himg, hpath, hcount⟩
  · rintro ⟨img, himg, hpath, hcount⟩
    exact ⟨img, ⟨himg, hcount⟩, hpath⟩

/-- C5: `images_with_all([])` is empty, and `images_with_all([id])`
returns the same set of paths as `images_with(id)`: a path is in one
result iff it is in the other. -/
theorem c5_images_with_all_spec (db : Database) (fid : Nat) :
    get_images_with_faces db [] = [] ∧
    ∀ p, (p ∈ get_images_with_faces db [fid] ↔
      p ∈ get_images_with_face db fid) := by
  constructor
  · simp [get_images_with_faces]
  intro p
  rw [mem_get_images_with_faces db [fid] p (by simp),
    mem_get_images_with_face]
  constructor
  · rintro ⟨img, himg, hpath, hcount⟩
    have hne : db.occurrences.filter
        (fun o => o.image_id = img.id ∧ o.face_id ∈ [fid]) ≠ [] := by
      intro h0
      rw [h0] at hcount
      simp at hcount
    obtain ⟨o, ho⟩ := List.exists_mem_of_ne_nil _ hne
    obtain ⟨hoccs, hcond⟩ := List.mem_filter.mp ho
    have hcond2 : o.image_id = img.id ∧ o.face_id ∈ [fid] := by
      simpa using hcond
    have hface : o.face_id = fid := by simpa using hcond2.2
    exact ⟨o, hoccs, hface, img, himg, hcond2.1.symm, hpath⟩
  · rintro ⟨o, ho, hface, img, himg, hid, hpath⟩
    refine ⟨img, himg, hpath, ?_⟩
    have hall : ∀ x ∈ (db.occurrences.filter
        (fun o2 => o2.image_id = img.id ∧ o2.face_id ∈ [fid])).map
          (fun o2 => o2.face_id), x = fid := by
      intro x hx
      obtain ⟨o2, ho2, rfl⟩ := List.mem_map.mp hx
      have hc := (List.mem_filter.mp ho2).2
      simp only [decide_eq_true_eq, List.mem_singleton] at hc
      exact hc.2
    have hne2 : (db.occurrences.filter
        (fun o2 => o2.image_id = img.id ∧ o2.face_id ∈ [fid])).map
          (fun o2 => o2.face_id) ≠ [] := by
      intro h0
      have hmem : o.face_id ∈ (db.occurrences.filter
          (fun o2 => o2.image_id = img.id ∧ o2.face_id ∈ [fid])).map
            (fun o2 => o2.face_id) :=
        List.mem_map_of_mem _
          (List.mem_filter.mpr ⟨ho, by simp [hid.symm, hface]⟩)
      rw [h0] at hmem
      exact absurd hmem (List.not_mem_nil _)
    rw [dedup_const _ fid hne2 hall]

/-- C10: feeding `get_images_with_faces` a list with a duplicated id makes
the `HAVING COUNT(DISTINCT face_id) = len(face_ids)` clause unsatisfiable
— the count of distinct matched ids is at most the number of distinct ids
in the list, which is strictly below its length — so the query returns
the empty set even for images containing every listed identity. -/
theorem c10_duplicate_ids_empty (db : Database) (fids : List Nat)
    (h : ¬ fids.Nodup) :
    get_images_with_faces db fids = [] := by
  have hne : fids ≠ [] := fun h0 => h (h0 ▸ List.nodup_nil)
  unfold get_images_with_faces
  rw [if_neg hne, List.map_eq_nil_iff, List.filter_eq_nil_iff]
  intro img himg
  simp only [decide_eq_true_eq]
  intro hcount
  have hsub : ((db.occurrences.filter
      (fun o => o.image_id = img.id ∧ o.face_id ∈ fids)).map
        (fun o => o.face_id)).dedup ⊆ fids.dedup := by
    intro x hx
    apply List.mem_dedup.mpr
    obtain ⟨o, ho, rfl⟩ := List.mem_map.mp (List.mem_dedup.mp hx)
    have hc := (List.mem_filter.mp ho).2
    simp only [decide_eq_true_eq] at hc
    exact hc.2
  have hle := (List.subperm_of_subset (List.nodup_dedup _) hsub).length_le
  have hlt : fids.dedup.length < fids.length := by
    rcases lt_or_eq_of_le fids.dedup_sublist.length_le with hlt | heq
    · exact hlt
    · exact absurd ((fids.dedup_sublist.eq_of_length heq) ▸ fids.nodup_dedup) h
  omega

/-- C10 witness: `mergeExDB` holds an image containing face 1, yet the
query for `[1, 1]` returns nothing. -/
theorem c10_witness :
    ¬ ([1, 1] : List Nat).Nodup ∧
    get_images_with_faces mergeExDB [1, 1] = [] :=
  ⟨by simp, c10_duplicate_ids_empty mergeExDB [1, 1] (by simp)⟩

/-- A store with one image holding two occurrences of the same face id 5
(the state produced by merging two faces that appear in one image, or by
two matches of the same identity). -/
def dupFacesDB : Database :=
  ⟨[⟨1, "a.jpg", 0⟩], [⟨5, 0⟩], [⟨1, 5, (0, 0, 1, 1)⟩, ⟨1, 5, (2, 2, 3, 3)⟩]⟩

/-- C7: counterexample to "each identity reported at most once".  The
query has no DISTINCT: an image with two occurrences of face 5 yields
`[5, 5]`. -/
theorem c7_counterexample :
    get_faces_in_image dupFacesDB "a.jpg" = [5, 5] ∧
    ¬ (get_faces_in_image dupFacesDB "a.jpg").Nodup := by
  have h : get_faces_in_image dupFacesDB "a.jpg" = [5, 5] := by
    simp [get_faces_in_image, dupFacesDB]
  exact ⟨h, by rw [h]; simp⟩

/-- C7 (amended): `identities_in(path)` returns one face id per
occurrence row of the image — the same identity may be reported several
times — and returns the empty list, without raising, for an empty or
unknown path. -/
theorem c7_get_faces_in_image_spec (db : Database) (path : String) :
    (path = "" → get_faces_in_image db path = []) ∧
    (db.images.find? (fun r => r.path = path) = none →
      get_faces_in_image db path = []) ∧
    (∀ img, path ≠ "" →
      db.images.find? (fun r => r.path = path) = some img →
      (get_faces_in_image db path).length =
        (db.occurrences.filter (fun o => o.image_id = img.id)).length ∧
      ∀ f, (f ∈ get_faces_in_image db path ↔
        ∃ o ∈ db.occurrences, o.image_id = img.id ∧ o.face_id = f)) := by
  refine ⟨fun h => by unfold get_faces_in_image; rw [if_pos h], ?_, ?_⟩
  · intro h
    unfold get_faces_in_image
    split
    · rfl
    · rw [h]
  · intro img hpe hfind
    unfold get_faces_in_image
    rw [if_neg hpe, hfind]
    constructor
    · exact List.length_map _ _
    · intro f
      simp only [List.mem_map, List.mem_filter, decide_eq_true_eq]
      constructor
      · rintro ⟨o, ⟨ho, hoi⟩, rfl⟩
        exact ⟨o, ho, hoi, rfl⟩
      · rintro ⟨o, ho, hoi, rfl⟩
        exact ⟨o, ⟨ho, hoi⟩, rfl⟩

/-- C7 witness: the amended theorem at concrete paths on `dupFacesDB`. -/
theorem c7_witness :
    get_faces_in_image dupFacesDB "" = [] ∧
    get_faces_in_image dupFacesDB "zzz.jpg" = [] ∧
    ((get_faces_in_image dupFacesDB "a.jpg").length =
      (dupFacesDB.occurrences.filter (fun o => o.image_id = 1)).length ∧
    ∀ f, (f ∈ get_faces_in_image dupFacesDB "a.jpg" ↔
      ∃ o ∈ dupFacesDB.occurrences, o.image_id = 1 ∧ o.face_id = f)) := by
  refine ⟨(c7_get_faces_in_image_spec dupFacesDB "").1 rfl,
    (c7_get_faces_in_image_spec dupFacesDB "zzz.jpg").2.1 (by rfl),
    (c7_get_faces_in_image_spec dupFacesDB "a.jpg").2.2 ⟨1, "a.jpg", 0⟩
      (by simp) (by rfl)⟩

/-! ## Ingestion (`Controller._handle_image_result`, lines 84-108) -/

/-- One iteration of the per-face loop (src/controller.py lines 94-97):
`fid = self.idx.find_or_add(emb)` followed by
`self.db.insert_occurrence(img_path, fid, box)`. -/
def ingestFace (sys : SysState) (path : String) (emb : Emb)
    (box : Int × Int × Int × Int) (mtime now : ℚ) : Nat × SysState :=
  let r := find_or_add sys.idx emb defaultThreshold
  (r.1, ⟨r.2, insert_occurrence sys.db path r.1 box mtime now⟩)

/-- The whole per-face loop of `_handle_image_result`: each detection is
resolved and its occurrence committed before the next detection is
touched; returns the final state and the collected face ids in order. -/
def processDetections (sys : SysState) (path : String)
    (dets : List (Emb × (Int × Int × Int × Int))) (mtime now : ℚ) :
    SysState × List Nat :=
  match dets with
  | [] => (sys, [])
  | (emb, box) :: rest =>
    let r := ingestFace sys path emb box mtime now
    let r2 := processDetections r.2 path rest mtime now
    (r2.1, r.1 :: r2.2)

/-- The coupling invariant between the two stores: every face id recorded
in the relational store is a row ordinal of the vector index. -/
def idsCoupled (sys : SysState) : Prop :=
  (∀ f ∈ sys.db.faces, f.id < sys.idx.vectors.length) ∧
  ∀ o ∈ sys.db.occurrences, o.face_id < sys.idx.vectors.length

theorem find_or_add_le (s : FaissIndex) (e : Emb) (t : ℚ) :
    (find_or_add s e t).1 < (find_or_add s e t).2.vectors.length ∧
    s.vectors.length ≤ (find_or_add s e t).2.vectors.length := by
  unfold find_or_add
  cases hsearch : search1 s e with
  | none => simp
  | some p =>
    obtain ⟨j, d⟩ := p
    by_cases hdt : d < t
    · obtain ⟨⟨v, hv, -⟩, -⟩ := search1_spec s e j d hsearch
      obtain ⟨hlt, -⟩ := List.get?_eq_some.mp hv
      simp [hdt, hlt]
    · simp [hdt]

theorem upsertFace_faces (db : Database) (fid : Nat) (now : ℚ) :
    (upsertFace db fid now).faces =
      (if db.faces.any (fun r => r.id = fid) then db.faces
       else db.faces ++ [⟨fid, now⟩]).map
        (fun r => if r.id = fid then ⟨r.id, now⟩ else r) := by
  unfold upsertFace
  by_cases hA : db.faces.any (fun r => r.id = fid) <;> simp [hA]

theorem upsertFace_ids (db : Database) (fid : Nat) (now : ℚ)
    (P : Nat → Prop) (hP : ∀ f ∈ db.faces, P f.id) (hfid : P fid) :
    ∀ f ∈ (upsertFace db fid now).faces, P f.id := by
  intro f hf
  rw [upsertFace_faces] at hf
  obtain ⟨f0, hf0, rfl⟩ := List.mem_map.mp hf
  have hid : (if f0.id = fid then (⟨f0.id, now⟩ : FaceRow) else f0).id = f0.id := by
    split <;> rfl
  rw [hid]
  split at hf0
  · exact hP f0 hf0
  · rcases List.mem_append.mp hf0 with hmem | hmem
    · exact hP f0 hmem
    · have : f0 = ⟨fid, now⟩ := by simpa using hmem
      rw [this]
      exact hfid

theorem insert_occurrence_occurrences (db : Database) (path : String)
    (fid : Nat) (box : Int × Int × Int × Int) (mtime now : ℚ) :
    (insert_occurrence db path fid box mtime now).occurrences =
      db.occurrences ++
        [⟨(lookupImageId (upsertImage db path mtime) path).getD 0, fid, box⟩] := by
  rw [insert_occurrence_eq]
  show (upsertFace (upsertImage db path mtime) fid now).occurrences ++ _ = _
  rw [upsertFace_occurrences, upsertImage_occurrences]

theorem insert_occurrence_faces_ids (db : Database) (path : String)
    (fid : Nat) (box : Int × Int × Int × Int) (mtime now : ℚ)
    (P : Nat → Prop) (hP : ∀ f ∈ db.faces, P f.id) (hfid : P fid) :
    ∀ f ∈ (insert_occurrence db path fid box mtime now).faces, P f.id := by
  rw [insert_occurrence_eq]
  show ∀ f ∈ (upsertFace (upsertImage db path mtime) fid now).faces, P f.id
  apply upsertFace_ids _ fid now P _ hfid
  rw [upsertImage_faces]
  exact hP

/-- C2: the identity id recorded by one ingestion step is exactly the id
the index returned — mirrored unchanged into the occurrences (and faces)
table — and it is a row ordinal of the post-step index; for a freshly
minted id the row at that ordinal is the very embedding it was minted
from; and the coupling invariant (every recorded id is a valid row
ordinal) is preserved. -/
theorem c2_index_store_coupling (sys : SysState) (path : String)
    (emb : Emb) (box : Int × Int × Int × Int) (mtime now : ℚ)
    (h : idsCoupled sys) :
    (∃ imgId, (ingestFace sys path emb box mtime now).2.db.occurrences =
      sys.db.occurrences ++
        [⟨imgId, (ingestFace sys path emb box mtime now).1, box⟩]) ∧
    (ingestFace sys path emb box mtime now).1 <
      (ingestFace sys path emb box mtime now).2.idx.vectors.length ∧
    ((∀ v ∈ sys.idx.vectors, defaultThreshold ≤ sqDist emb v) →
      (ingestFace sys path emb box mtime now).2.idx.vectors.get?
        (ingestFace sys path emb box mtime now).1 = some emb) ∧
    idsCoupled (ingestFace sys path emb box mtime now).2 := by
  obtain ⟨hlt, hle⟩ := find_or_add_le sys.idx emb defaultThreshold
  refine ⟨⟨(lookupImageId (upsertImage sys.db path mtime) path).getD 0,
      insert_occurrence_occurrences sys.db path _ box mtime now⟩,
    hlt, ?_, ?_, ?_⟩
  · intro hmiss
    have hm := find_or_add_miss sys.idx emb defaultThreshold hmiss
    show (find_or_add sys.idx emb defaultThreshold).2.vectors.get?
      (find_or_add sys.idx emb defaultThreshold).1 = some emb
    rw [hm]
    show (sys.idx.vectors ++ [emb]).get? sys.idx.vectors.length = some emb
    rw [List.get?_eq_getElem?]
    exact List.getElem?_concat_length _ _
  · show ∀ f ∈ (insert_occurrence sys.db path
        (find_or_add sys.idx emb defaultThreshold).1 box mtime now).faces,
      f.id < (find_or_add sys.idx emb defaultThreshold).2.vectors.length
    exact insert_occurrence_faces_ids sys.db path _ box mtime now
      (fun n => n < (find_or_add sys.idx emb defaultThreshold).2.vectors.length)
      (fun f hf => lt_of_lt_of_le (h.1 f hf) hle) hlt
  · show ∀ o ∈ (insert_occurrence sys.db path
        (find_or_add sys.idx emb defaultThreshold).1 box mtime now).occurrences,
      o.face_id < (find_or_add sys.idx emb defaultThreshold).2.vectors.length
    intro o ho
    rw [insert_occurrence_occurrences] at ho
    rcases List.mem_append.mp ho with hmem | hmem
    · exact lt_of_lt_of_le (h.2 o hmem) hle
    · have : o = ⟨(lookupImageId (upsertImage sys.db path mtime) path).getD 0,
          (find_or_add sys.idx emb defaultThreshold).1, box⟩ := by
        simpa using hmem
      rw [this]
      exact hlt

/-- C2 witness: the coupling theorem at one concrete ingestion into the
empty system. -/
theorem c2_witness :
    (∃ imgId,
      (ingestFace ⟨⟨[]⟩, emptyDB⟩ "a.jpg" [0] (0, 0, 1, 1) 0 0).2.db.occurrences =
        emptyDB.occurrences ++
          [⟨imgId, (ingestFace ⟨⟨[]⟩, emptyDB⟩ "a.jpg" [0] (0, 0, 1, 1) 0 0).1,
            (0, 0, 1, 1)⟩]) ∧
    (ingestFace ⟨⟨[]⟩, emptyDB⟩ "a.jpg" [0] (0, 0, 1, 1) 0 0).1 <
      (ingestFace ⟨⟨[]⟩, emptyDB⟩ "a.jpg" [0] (0, 0, 1, 1) 0 0).2.idx.vectors.length ∧
    (ingestFace ⟨⟨[]⟩, emptyDB⟩ "a.jpg" [0] (0, 0, 1, 1) 0 0).2.idx.vectors.get?
      (ingestFace ⟨⟨[]⟩, emptyDB⟩ "a.jpg" [0] (0, 0, 1, 1) 0 0).1 = some [0] ∧
    idsCoupled (ingestFace ⟨⟨[]⟩, emptyDB⟩ "a.jpg" [0] (0, 0, 1, 1) 0 0).2 := by
  obtain ⟨ha, hb, hc, hd⟩ := c2_index_store_coupling ⟨⟨[]⟩, emptyDB⟩ "a.jpg"
    [0] (0, 0, 1, 1) 0 0 ⟨by simp [emptyDB], by simp [emptyDB]⟩
  exact ⟨ha, hb, hc (by simp), hd⟩

/-- Each detection adds exactly one committed occurrence row: after
processing a list of detections the occurrence count has grown by the
number of detections. -/
theorem processDetections_occs_length (sys : SysState) (path : String)
    (dets : List (Emb × (Int × Int × Int × Int))) (mtime now : ℚ) :
    ((processDetections sys path dets mtime now).1.db.occurrences).length =
      sys.db.occurrences.length + dets.length := by
  induction dets generalizing sys with
  | nil => simp [processDetections]
  | cons d rest ih =>
    obtain ⟨emb, box⟩ := d
    show ((processDetections (ingestFace sys path emb box mtime now).2
      path rest mtime now).1.db.occurrences).length = _
    rw [ih]
    have hocc : (ingestFace sys path emb box mtime now).2.db.occurrences.length =
        sys.db.occurrences.length + 1 := by
      show (insert_occurrence sys.db path _ box mtime now).occurrences.length = _
      rw [insert_occurrence_occurrences]
      simp
    rw [hocc]
    simp only [List.length_cons]
    omega

/-- C6: counterexample to "no partial per-face visibility".  Ingesting an
image with two detections passes through the committed state reached
after the first detection alone — that state holds exactly one of the
image's two occurrence rows, and the full run continues from it. -/
theorem c6_counterexample :
    ((processDetections ⟨⟨[]⟩, emptyDB⟩ "a.jpg" [([0], (0, 0, 1, 1))]
        0 0).1.db.occurrences).length = 1 ∧
    ((processDetections ⟨⟨[]⟩, emptyDB⟩ "a.jpg"
        [([0], (0, 0, 1, 1)), ([1], (1, 1, 2, 2))] 0 0).1.db.occurrences).length = 2 ∧
    (processDetections ⟨⟨[]⟩, emptyDB⟩ "a.jpg"
        [([0], (0, 0, 1, 1)), ([1], (1, 1, 2, 2))] 0 0).1 =
      (processDetections
        (processDetections ⟨⟨[]⟩, emptyDB⟩ "a.jpg" [([0], (0, 0, 1, 1))] 0 0).1
        "a.jpg" [([1], (1, 1, 2, 2))] 0 0).1 := by
  refine ⟨?_, ?_, rfl⟩
  · rw [processDetections_occs_length]
    rfl
  · rw [processDetections_occs_length]
    rfl

/-- C6 (amended): occurrences are committed incrementally, one per
resolved detection — after processing the first `k` detections of an
image exactly `k` of its occurrence rows are visible, and only after the
last one are all of them visible. -/
theorem c6_per_face_commit (sys : SysState) (path : String)
    (dets : List (Emb × (Int × Int × Int × Int))) (mtime now : ℚ) :
    (∀ k, ((processDetections sys path (dets.take k)
        mtime now).1.db.occurrences).length =
      sys.db.occurrences.length + min k dets.length) ∧
    ((processDetections sys path dets mtime now).1.db.occurrences).length =
      sys.db.occurrences.length + dets.length :=
  ⟨fun k => by rw [processDetections_occs_length, List.length_take],
    processDetections_occs_length sys path dets mtime now⟩

/-! ## Folder scan (`Controller.scan_folder`, src/controller.py lines 33-60) -/

/-- The extension filter `fn.lower().endswith((".jpg", ".png",
".jpeg"))`. -/
def isImageFile (fn : String) : Bool :=
  (fn.toLower).endsWith ".jpg" || (fn.toLower).endsWith ".png" ||
    (fn.toLower).endsWith ".jpeg"

/-- Model of `Controller.scan_folder`: walk the folder (modelled as the list of
`(root, filename)` pairs `os.walk` yields), collect the joined paths of
files passing the extension filter, and compute the images to enqueue as
those not yet processed.  Returns `(all_image_paths, new_images)`. -/
def scan_folder (files : List (String × String)) (db : Database) :
    List String × List String :=
  let all := (files.filter (fun rf => isImageFile rf.2)).map
    (fun rf => rf.1 ++ "/" ++ rf.2)
  let processed := get_processed_images db
  (all, all.filter (fun p => ¬ p ∈ processed))

/-- C8: the scan collects exactly the files whose lowercased name ends in
.jpg/.png/.jpeg, hands the full list back, and enqueues exactly the
collected paths without an occurrence in the store; a processed path is
never enqueued again. -/
theorem c8_scan_spec (files : List (String × String)) (db : Database) :
    (∀ p, p ∈ (scan_folder files db).1 ↔
      ∃ rf ∈ files, ((rf.2.toLower).endsWith ".jpg" ∨
        (rf.2.toLower).endsWith ".png" ∨
        (rf.2.toLower).endsWith ".jpeg") ∧ p = rf.1 ++ "/" ++ rf.2) ∧
    (∀ p, p ∈ (scan_folder files db).2 ↔
      (p ∈ (scan_folder files db).1 ∧ ¬ p ∈ get_processed_images db)) ∧
    (∀ p, p ∈ get_processed_images db ↔
      ∃ o ∈ db.occurrences, ∃ img ∈ db.images,
        img.id = o.image_id ∧ img.path = p) ∧
    ∀ p, p ∈ get_processed_images db → ¬ p ∈ (scan_folder files db).2 := by
  have h1 : ∀ p, p ∈ (scan_folder files db).1 ↔
      ∃ rf ∈ files, ((rf.2.toLower).endsWith ".jpg" ∨
        (rf.2.toLower).endsWith ".png" ∨
        (rf.2.toLower).endsWith ".jpeg") ∧ p = rf.1 ++ "/" ++ rf.2 := by
    intro p
    show p ∈ (files.filter (fun rf => isImageFile rf.2)).map
      (fun rf => rf.1 ++ "/" ++ rf.2) ↔ _
    simp only [List.mem_map, List.mem_filter, isImageFile, Bool.or_eq_true]
    constructor
    · rintro ⟨rf, ⟨hrf, hext⟩, rfl⟩
      refine ⟨rf, hrf, ?_, rfl⟩
      rcases hext with (h | h) | h
      · exact Or.inl h
      · exact Or.inr (Or.inl h)
      · exact Or.inr (Or.inr h)
    · rintro ⟨rf, hrf, hext, rfl⟩
      refine ⟨rf, ⟨hrf, ?_⟩, rfl⟩
      rcases hext with h | h | h
      · exact Or.inl (Or.inl h)
      · exact Or.inl (Or.inr h)
      · exact Or.inr h
  have h2 : ∀ p, p ∈ (scan_folder files db).2 ↔
      (p ∈ (scan_folder files db).1 ∧ ¬ p ∈ get_processed_images db) := by
    intro p
    constructor
    · intro hp
      have hm := List.mem_filter.mp hp
      exact ⟨hm.1, by simpa using hm.2⟩
    · rintro ⟨hp1, hp2⟩
      exact List.mem_filter.mpr ⟨hp1, by simpa using hp2⟩
  have h3 : ∀ p, p ∈ get_processed_images db ↔
      ∃ o ∈ db.occurrences, ∃ img ∈ db.images,
        img.id = o.image_id ∧ img.path = p := by
    intro p
    unfold get_processed_images
    rw [List.mem_dedup]
    simp only [List.mem_flatMap, List.mem_filter, List.mem_map,
      decide_eq_true_eq]
    constructor
    · rintro ⟨o, ho, img, ⟨himg, hid⟩, hpath⟩
      exact ⟨o, ho, img, himg, hid, hpath⟩
    · rintro ⟨o, ho, img, himg, hid, hpath⟩
      exact ⟨o, ho, img, ⟨himg, hid⟩, hpath⟩
  exact ⟨h1, h2, h3, fun p hp hmem => ((h2 p).mp hmem).2 hp⟩

/-- A store in which `root/a.jpg` already has an occurrence. -/
def scanExDB : Database :=
  ⟨[⟨1, "root/a.jpg", 0⟩], [⟨0, 0⟩], [⟨1, 0, (0, 0, 1, 1)⟩]⟩

/-- C8 witness: re-scanning a folder containing the already-processed
`root/a.jpg` does not enqueue it again. -/
theorem c8_witness :
    ¬ "root/a.jpg" ∈
      (scan_folder [("root", "a.jpg"), ("root", "b.txt")] scanExDB).2 := by
  apply (c8_scan_spec [("root", "a.jpg"), ("root", "b.txt")] scanExDB).2.2.2
  exact ((c8_scan_spec [("root", "a.jpg"), ("root", "b.txt")]
      scanExDB).2.2.1 "root/a.jpg").mpr
    ⟨⟨1, 0, (0, 0, 1, 1)⟩, by simp [scanExDB], ⟨1, "root/a.jpg", 0⟩,
      by simp [scanExDB], rfl, rfl⟩

/-! ## The bounded-concurrency scheduler (src/controller.py lines 28-31,
62-108).  `queue` is `self.image_queue`, `pending` is
`self.pending_tasks`; `inflight` (the multiset of dispatched,
not-yet-called-back paths held by the pool) and `dispatched` (the paths
handed to the pool since the last scan) are ghost history variables. -/

structure Sched where
  queue : List String
  pending : Nat
  inflight : List String
  dispatched : List String
deriving DecidableEq, Repr

/-- The while-loop of `_submit_next_images` (lines 62-74): while the
queue is non-empty and `pending_tasks < max_pending`, pop the head,
increment the counter and dispatch the path to the pool. -/
def submitNextAux (C : Nat) :
    List String → Nat → List String → List String → Sched
  | [], pend, infl, disp => ⟨[], pend, infl, disp⟩
  | p :: rest, pend, infl, disp =>
    if pend < C then
      submitNextAux C rest (pend + 1) (infl ++ [p]) (disp ++ [p])
    else ⟨p :: rest, pend, infl, disp⟩

def submit_next_images (C : Nat) (s : Sched) : Sched :=
  submitNextAux C s.queue s.pending s.inflight s.dispatched

/-- Scheduler effect of `_handle_image_result` (lines 84-108): decrement
`pending_tasks`, retire the completed task, re-run
`_submit_next_images`. -/
def handleResultSched (C : Nat) (s : Sched) (p : String) : Sched :=
  submit_next_images C ⟨s.queue, s.pending - 1, s.inflight.erase p, s.dispatched⟩

/-- Scheduler effect of `_handle_worker_error` (lines 76-82): identical
bookkeeping to the success callback. -/
def handleErrorSched (C : Nat) (s : Sched) (p : String) : Sched :=
  submit_next_images C ⟨s.queue, s.pending - 1, s.inflight.erase p, s.dispatched⟩

/-- Scheduler effect of `scan_folder` (lines 59-60): replace the pending
queue with the new images and submit; the per-scan dispatch history
restarts. -/
def scanStep (C : Nat) (s : Sched) (newImages : List String) : Sched :=
  submit_next_images C ⟨newImages, s.pending, s.inflight, []⟩

/-- The scheduler states reachable from a fresh controller by scans and
worker callbacks.  A callback can only fire for a task the pool holds,
and `os.walk` yields each file once, so a scan's queue has no
duplicates. -/
inductive Reachable (C : Nat) : Sched → Prop
  | init : Reachable C ⟨[], 0, [], []⟩
  | scan (s : Sched) (newImages : List String) (h : Reachable C s)
      (hn : newImages.Nodup) : Reachable C (scanStep C s newImages)
  | result (s : Sched) (p : String) (h : Reachable C s)
      (hp : p ∈ s.inflight) : Reachable C (handleResultSched C s p)
  | error (s : Sched) (p : String) (h : Reachable C s)
      (hp : p ∈ s.inflight) : Reachable C (handleErrorSched C s p)

/-- The inductive invariant: the counter equals the number of in-flight
tasks, it never exceeds `C`, no path was dispatched twice this scan, the
queue has no duplicates and shares nothing with the dispatch history,
and after a submit pass either the queue is drained or capacity is
full. -/
def SchedInv (C : Nat) (s : Sched) : Prop :=
  s.pending = s.inflight.length ∧
  s.pending ≤ C ∧
  s.dispatched.Nodup ∧
  s.queue.Nodup ∧
  (∀ p ∈ s.queue, ¬ p ∈ s.dispatched) ∧
  (s.queue = [] ∨ C ≤ s.pending)

theorem submitNextAux_inv (C : Nat) (q : List String) (pend : Nat)
    (infl disp : List String) (hpl : pend = infl.length) (hpC : pend ≤ C)
    (hd : disp.Nodup) (hq : q.Nodup) (hdisj : ∀ p ∈ q, ¬ p ∈ disp) :
    SchedInv C (submitNextAux C q pend infl disp) := by
  induction q generalizing pend infl disp with
  | nil =>
    exact ⟨hpl, hpC, hd, List.nodup_nil,
      fun p hp => absurd hp (List.not_mem_nil p), Or.inl rfl⟩
  | cons p rest ih =>
    show SchedInv C (if pend < C then
      submitNextAux C rest (pend + 1) (infl ++ [p]) (disp ++ [p])
      else ⟨p :: rest, pend, infl, disp⟩)
    by_cases hpc : pend < C
    · rw [if_pos hpc]
      apply ih
      · simp [hpl]
      · omega
      · exact List.Nodup.append hd (List.nodup_singleton p)
          (List.disjoint_singleton.mpr (hdisj p (List.mem_cons_self p rest)))
      · exact (List.nodup_cons.mp hq).2
      · intro x hx
        simp only [List.mem_append, List.mem_singleton]
        rintro (hmem | rfl)
        · exact hdisj x (List.mem_cons_of_mem p hx) hmem
        · exact (List.nodup_cons.mp hq).1 hx
    · rw [if_neg hpc]
      exact ⟨hpl, hpC, hd, hq, hdisj, Or.inr (by show C ≤ pend; omega)⟩

theorem reachable_inv (C : Nat) (s : Sched) (h : Reachable C s) :
    SchedInv C s := by
  induction h with
  | init =>
    exact ⟨rfl, Nat.zero_le C, List.nodup_nil, List.nodup_nil,
      fun p hp => absurd hp (List.not_mem_nil p), Or.inl rfl⟩
  | scan s newImages h hn ih =>
    show SchedInv C (submitNextAux C newImages s.pending s.inflight [])
    apply submitNextAux_inv
    · exact ih.1
    · exact ih.2.1
    · exact List.nodup_nil
    · exact hn
    · intro p hp
      exact List.not_mem_nil p
  | result s p h hp ih =>
    show SchedInv C
      (submitNextAux C s.queue (s.pending - 1) (s.inflight.erase p) s.dispatched)
    apply submitNextAux_inv
    · rw [List.length_erase_of_mem hp, ih.1]
    · have := ih.2.1
      omega
    · exact ih.2.2.1
    · exact ih.2.2.2.1
    · exact ih.2.2.2.2.1
  | error s p h hp ih =>
    show SchedInv C
      (submitNextAux C s.queue (s.pending - 1) (s.inflight.erase p) s.dispatched)
    apply submitNextAux_inv
    · rw [List.length_erase_of_mem hp, ih.1]
    · have := ih.2.1
      omega
    · exact ih.2.2.1
    · exact ih.2.2.2.1
    · exact ih.2.2.2.2.1

/-- C9: over every reachable scheduler state (any interleaving of scans
and out-of-order success/error callbacks), the in-flight count matches
the pool's task multiset and never exceeds `C`, no path is dispatched
twice within one scan, and once every dispatched task's callback has
fired (no task in flight) the counter is 0 and the pending queue is
empty. -/
theorem c9_scheduler_invariant (C : Nat) (s : Sched) (hC : 1 ≤ C)
    (h : Reachable C s) :
    s.pending = s.inflight.length ∧
    s.pending ≤ C ∧
    s.dispatched.Nodup ∧
    (s.inflight = [] → s.pending = 0 ∧ s.queue = []) := by
  have inv := reachable_inv C s h
  refine ⟨inv.1, inv.2.1, inv.2.2.1, fun hin => ?_⟩
  have hp0 : s.pending = 0 := by rw [inv.1, hin]; rfl
  refine ⟨hp0, ?_⟩
  rcases inv.2.2.2.2.2 with hq | hCle
  · exact hq
  · omega

/-- C9 witness: scan two images with `C = 3`, then both callbacks fire,
and the invariant theorem applies to the resulting quiescent state. -/
theorem c9_witness :
    (handleResultSched 3 (handleResultSched 3
        (scanStep 3 ⟨[], 0, [], []⟩ ["a", "b"]) "a") "b").pending =
      (handleResultSched 3 (handleResultSched 3
        (scanStep 3 ⟨[], 0, [], []⟩ ["a", "b"]) "a") "b").inflight.length ∧
    (handleResultSched 3 (handleResultSched 3
        (scanStep 3 ⟨[], 0, [], []⟩ ["a", "b"]) "a") "b").pending ≤ 3 ∧
    (handleResultSched 3 (handleResultSched 3
        (scanStep 3 ⟨[], 0, [], []⟩ ["a", "b"]) "a") "b").dispatched.Nodup ∧
    ((handleResultSched 3 (handleResultSched 3
        (scanStep 3 ⟨[], 0, [], []⟩ ["a", "b"]) "a") "b").inflight = [] →
      (handleResultSched 3 (handleResultSched 3
          (scanStep 3 ⟨[], 0, [], []⟩ ["a", "b"]) "a") "b").pending = 0 ∧
      (handleResultSched 3 (handleResultSched 3
          (scanStep 3 ⟨[], 0, [], []⟩ ["a", "b"]) "a") "b").queue = []) := by
  apply c9_scheduler_invariant 3 _ (by omega)
  apply Reachable.result _ "b"
  · apply Reachable.result _ "a"
    · exact Reachable.scan _ ["a", "b"] Reachable.init (by decide)
    · decide
  · decide

end SnapSort
